import Mathlib

/-!
Verification of the `configure` dotenv loader (`dotenv.go`).

Strings are embedded as `List Char`.  Each `go...` helper below models the
Go standard-library function used by the source; the repository's own
functions (`isIgnoredLine`, `parseLine`, `Setup`, the accessors) are
translated clause by clause.  Go's `map[string]interface{}` is modelled as
an association list of dynamic values (`GoValue`), and a Go `(value, err)`
return pair is modelled by `GoRet`, with a separate constructor for a
run-time panic caused by a failed single-form type assertion.
-/

set_option autoImplicit false

namespace Configure

/-- Number of occurrences of the character `c` in `s`
(models `strings.Count` for a one-character substring). -/
def countChar (c : Char) : List Char → Nat
  | [] => 0
  | d :: rest => (if d = c then 1 else 0) + countChar c rest

/-- Models `strings.Split(s, sep)` for a one-character separator:
the list of segments between occurrences of `sep`.
`splitChar sep [] = [[]]`, matching Go's `Split("", sep) = [""]`. -/
def splitChar (sep : Char) : List Char → List (List Char)
  | [] => [[]]
  | c :: rest =>
    if c = sep then [] :: splitChar sep rest
    else
      match splitChar sep rest with
      | [] => [[c]]
      | s :: ss => (c :: s) :: ss

/-- Models `strings.Join(parts, sep)` for a one-character separator. -/
def joinChar (sep : Char) : List (List Char) → List Char
  | [] => []
  | [s] => s
  | s :: s2 :: ss => s ++ sep :: joinChar sep (s2 :: ss)

/-- Models `strings.SplitN(s, sep, 2)` for a one-character separator:
`some (before, after)` at the first occurrence of `sep`, `none` if `sep`
does not occur (the Go call then returns a one-element slice). -/
def splitFirst (sep : Char) : List Char → Option (List Char × List Char)
  | [] => none
  | c :: rest =>
    if c = sep then some ([], rest)
    else (splitFirst sep rest).map (fun p => (c :: p.1, p.2))

/-- Drop leading characters belonging to the cutset `cut`. -/
def trimLeftChars (cut : List Char) : List Char → List Char
  | [] => []
  | c :: rest => if c ∈ cut then trimLeftChars cut rest else c :: rest

/-- Models `strings.Trim(s, cutset)`: remove all leading and trailing
characters contained in `cut`. -/
def goTrim (cut : List Char) (s : List Char) : List Char :=
  (trimLeftChars cut (trimLeftChars cut s).reverse).reverse

/-- Models `strings.HasPrefix(s, p)` (argument order: prefix first). -/
def goStartsWith : List Char → List Char → Bool
  | [], _ => true
  | _ :: _, [] => false
  | c :: p, d :: s => if c = d then goStartsWith p s else false

/-- Models `strings.TrimPrefix(s, p)` (argument order: prefix first). -/
def goStripLead (p s : List Char) : List Char :=
  if goStartsWith p s then s.drop p.length else s

/-- Models `strings.Replace(s, pat, rep, -1)` for a two-character pattern
`[a, b]`: replace every non-overlapping occurrence, scanning left to right. -/
def replace2 (a b : Char) (rep : List Char) : List Char → List Char
  | [] => []
  | [c] => [c]
  | c :: d :: rest =>
    if c = a ∧ d = b then rep ++ replace2 a b rep rest
    else c :: replace2 a b rep (d :: rest)

/-- The two escape expansions of `parseLine`, in source order:
first `strings.Replace(value, "\\\"", "\"", -1)`, then
`strings.Replace(value, "\\n", "\n", -1)`. -/
def expandEscapes (v : List Char) : List Char :=
  replace2 '\\' 'n' ['\n'] (replace2 '\\' '"' ['"'] v)

/-- The loop body of the comment-stripping pass of `parseLine`: iterate over
the segments between `#` characters, carrying the `quotesAreOpen` flag and
the `segmentsToKeep` accumulator.  A segment containing exactly one `"` or
exactly one `'` toggles the flag (and is kept exactly once: when it shuts
the quotes Go appends it in the toggle branch, and when it opens them the
subsequent `len == 0 || quotesAreOpen` test appends it); any other segment
is kept iff the accumulator is still empty or the quotes are open. -/
def commentLoop : List (List Char) → Bool → List (List Char) → List (List Char)
  | [], _, keep => keep
  | seg :: rest, opn, keep =>
    if countChar '"' seg = 1 ∨ countChar '\'' seg = 1 then
      if opn then commentLoop rest false (keep ++ [seg])
      else commentLoop rest true (keep ++ [seg])
    else
      if keep.length = 0 ∨ opn then commentLoop rest opn (keep ++ [seg])
      else commentLoop rest opn keep

/-- The "ditch the comments (but keep quoted hashes)" block of `parseLine`:
when the line contains `#`, split on `#`, run the keep/drop loop and re-join
with `#`; otherwise the line is left untouched. -/
def removeComments (line : List Char) : List Char :=
  if '#' ∈ line then joinChar '#' (commentLoop (splitChar '#' line) false [])
  else line

/-- The characters of the literal `"export"`. -/
def exportToken : List Char := ['e', 'x', 'p', 'o', 'r', 't']

/-- The value-normalization tail of `parseLine`: trim spaces, and when the
value holds exactly two `"` or exactly two `'` characters, strip every
leading/trailing quote character of either kind (`strings.Trim(value, "\"'")`)
and expand the `\"` and `\n` escapes. -/
def normalizeValue (v : List Char) : List Char :=
  let v := goTrim [' '] v
  if countChar '"' v = 2 ∨ countChar '\'' v = 2 then
    expandEscapes (goTrim ['"', '\''] v)
  else v

/-- `parseLine` from `dotenv.go`: `none` models a non-nil `err` (zero-length
line, or neither `=` nor `:` present after comment removal); `some (k, v)`
is the parsed key/value pair. -/
def parseLine (line : List Char) : Option (List Char × List Char) :=
  if line = [] then none
  else
    let line := removeComments line
    let split :=
      match splitFirst '=' line with
      | some p => some p
      | none => splitFirst ':' line
    match split with
    | none => none
    | some (k, v) =>
      let key := if goStartsWith exportToken k then goStripLead exportToken k else k
      let key := goTrim [' '] key
      some (key, normalizeValue v)

/-- `isIgnoredLine` from `dotenv.go`: trim the cutset `" \n\t"` and test for
emptiness or a leading `#`. -/
def isIgnoredLine (line : List Char) : Bool :=
  let t := goTrim [' ', '\n', '\t'] line
  t.length = 0 ∨ goStartsWith ['#'] t

/-- A dynamic value stored in the Go `map[string]interface{}`. `Setup` only
ever inserts `str` values; the other constructors exist so that the
`v.(string)` / `v.(int)` type assertions of the accessors are modelled as
genuine run-time tests. -/
inductive GoValue where
  | str : List Char → GoValue
  | int : Int → GoValue
  | boolean : Bool → GoValue
deriving DecidableEq

/-- The `h.values` map, as an association list. -/
abbrev Store := List (List Char × GoValue)

/-- Map write `m[k] = v`: replace the binding of the first matching key, or
append a new binding. -/
def mapInsert : Store → List Char → GoValue → Store
  | [], k, v => [(k, v)]
  | (k', v') :: rest, k, v =>
    if k' = k then (k, v) :: rest else (k', v') :: mapInsert rest k v

/-- Map read `m[k]`: the value bound to `k`, if any. -/
def mapLookup : Store → List Char → Option GoValue
  | [], _ => none
  | (k', v') :: rest, k => if k' = k then some v' else mapLookup rest k

/-- One iteration of the line loop of `Setup`: skip ignored lines, parse,
and store the pair only when `parseLine` reported no error. -/
def setupStep (store : Store) (line : List Char) : Store :=
  if isIgnoredLine line then store
  else
    match parseLine line with
    | some (k, v) => mapInsert store k (GoValue.str v)
    | none => store

/-- The whole line loop of `Setup`, started from the fresh empty map. -/
def setupLines (lines : List (List Char)) : Store :=
  lines.foldl setupStep []

/-- `Setup` from `dotenv.go`.  The generator argument stands for
`h.gen()` followed by the scan into lines: `none` is a generator error
(propagated, `h.values` left nil and hence read as empty), `some lines` is a
successful read.  `Setup` itself never fails after the generator succeeds. -/
def Setup (gen : Option (List (List Char))) : Option Store :=
  gen.map setupLines

/-- The `v.(string)` type assertion: succeeds exactly on `str` values. -/
def assertString : GoValue → Option (List Char)
  | .str s => some s
  | _ => none

/-- The `v.(int)` type assertion: succeeds exactly on `int` values. -/
def assertInt : GoValue → Option Int
  | .int n => some n
  | _ => none

/-- Models `strconv.ParseBool`: the exact token list accepted by Go. -/
def parseBool (s : List Char) : Option Bool :=
  if s ∈ (["1", "t", "T", "TRUE", "true", "True"].map String.toList) then some true
  else if s ∈ (["0", "f", "F", "FALSE", "false", "False"].map String.toList) then some false
  else none

/-- Leading sign of a Go number literal: `(negative, rest)`. -/
def splitSign : List Char → Bool × List Char
  | '+' :: r => (false, r)
  | '-' :: r => (true, r)
  | s => (false, s)

/-- Numeric value of a digit string. -/
def natOfDigits : List Char → Nat :=
  List.foldl (fun a c => a * 10 + (c.toNat - 48)) 0

/-- Models `strconv.ParseInt(s, 10, 64)` with the accessor's error guard:
optional sign, a non-empty run of decimal digits, and the value must fit in
a signed 64-bit integer (Go returns `ErrRange`, hence a non-nil error,
otherwise). -/
def parseInt10 (s : List Char) : Option Int :=
  let (neg, ds) := splitSign s
  if ds = [] ∨ ¬ ds.all Char.isDigit then none
  else
    let n : Int := natOfDigits ds
    let v : Int := if neg then -n else n
    if -(2 ^ 63) ≤ v ∧ v ≤ 2 ^ 63 - 1 then some v else none

/-- Models `int(f)` for `f, err := strconv.ParseFloat(s, 64)` guarded by
`err == nil`, on plain decimal syntax: optional sign, digits with an
optional fraction (at least one digit overall), and an optional `e`/`E`
exponent.  The decimal value is truncated toward zero exactly; magnitudes
at or beyond `2^1024` model Go's overflow (`±Inf` plus `ErrRange`, hence a
non-nil error) and yield `none`.  Special values (`Inf`, `NaN`), hex floats,
digit-group underscores, and double rounding at the `float64` step are
outside the scope of the claims and are not modelled. -/
def parseFloatTrunc (s : List Char) : Option Int :=
  let (neg, body) := splitSign s
  let (mant, expPart) :=
    match splitFirst 'e' body with
    | some (m, e) => (m, some e)
    | none =>
      match splitFirst 'E' body with
      | some (m, e) => (m, some e)
      | none => (body, none)
  let (ip, fp) :=
    match splitFirst '.' mant with
    | some (i, f) => (i, f)
    | none => (mant, [])
  if ¬ ip.all Char.isDigit ∨ ¬ fp.all Char.isDigit ∨ (ip = [] ∧ fp = []) then none
  else
    let expVal : Option Int :=
      match expPart with
      | none => some 0
      | some e =>
        let (eneg, eds) := splitSign e
        if eds = [] ∨ ¬ eds.all Char.isDigit then none
        else
          let n : Int := natOfDigits eds
          some (if eneg then -n else n)
    match expVal with
    | none => none
    | some ex =>
      let n : Nat := natOfDigits (ip ++ fp)
      let e : Int := ex - fp.length
      let mag : Nat :=
        if 0 ≤ e then n * 10 ^ e.toNat
        else n / 10 ^ (-e).toNat
      if mag ≥ 2 ^ 1024 then none
      else
        let m : Int := mag
        some (if neg then -m else m)

/-- A Go `(value, error)` return: `ret v errored` carries the returned value
and whether the error was non-nil; `crash` is a run-time panic (a failed
single-form type assertion), which aborts the process instead of
returning. -/
inductive GoRet (α : Type) where
  | ret : α → Bool → GoRet α
  | crash : GoRet α
deriving DecidableEq

/-- The `value` method of `DotEnv`: map lookup, `"variable does not exist"`
error when absent. -/
def dotenvValue (store : Store) (name : List Char) : Option GoValue :=
  mapLookup store name

/-- The `Int` accessor, method `(*DotEnv).Int`.  After a successful lookup
it runs `strconv.ParseFloat(v.(string), 64)`, falls back to
`strconv.ParseInt(v.(string), 10, 64)`, and on the double failure executes
`return v.(int), errors.New(...)`; the type assertions are modelled by
`assertString` / `assertInt`, whose failure is a panic (`crash`). -/
def dotenvInt (store : Store) (name : List Char) : GoRet Int :=
  match dotenvValue store name with
  | none => .ret 0 true
  | some v =>
    match assertString v with
    | none => .crash
    | some s =>
      match parseFloatTrunc s with
      | some n => .ret n false
      | none =>
        match parseInt10 s with
        | some i => .ret i false
        | none =>
          match assertInt v with
          | some m => .ret m true
          | none => .crash

/-- The `Bool` accessor, method `(*DotEnv).Bool`: lookup, then
`strconv.ParseBool(v.(string))`, returning `(false, err)` on parse
failure. -/
def dotenvBool (store : Store) (name : List Char) : GoRet Bool :=
  match dotenvValue store name with
  | none => .ret false true
  | some v =>
    match assertString v with
    | none => .crash
    | some s =>
      match parseBool s with
      | some b => .ret b false
      | none => .ret false true

/-- The `String` accessor, method `(*DotEnv).String`: lookup, then the
`v.(string)` assertion. -/
def dotenvString (store : Store) (name : List Char) : GoRet (List Char) :=
  match dotenvValue store name with
  | none => .ret [] true
  | some v =>
    match assertString v with
    | some s => .ret s false
    | none => .crash

/-! ### Spec-side definitions

These definitions follow the wording of the specification (not the source)
and exist to be compared against the source-derived definitions above. -/

/-- Remove one leading occurrence of `q`, if the first character is `q`. -/
def stripOneLeading (q : Char) : List Char → List Char
  | [] => []
  | c :: r => if c = q then r else c :: r

/-- Remove one trailing occurrence of `q`, if the last character is `q`. -/
def stripOneTrailing (q : Char) (s : List Char) : List Char :=
  (stripOneLeading q s.reverse).reverse

/-- Value normalization as the spec words it: trim spaces; if the value
contains exactly two `"` (or else exactly two `'`) characters, strip exactly
one leading and one trailing quote character of that quote type, leaving
quote characters of the other type in place, then expand escapes. -/
def specNormalizeValue (v : List Char) : List Char :=
  let v := goTrim [' '] v
  if countChar '"' v = 2 then
    expandEscapes (stripOneTrailing '"' (stripOneLeading '"' v))
  else if countChar '\'' v = 2 then
    expandEscapes (stripOneTrailing '\'' (stripOneLeading '\'' v))
  else v

/-- The key/value pair a line contributes during `Setup`, if any: ignored
lines and parse failures contribute nothing. -/
def lineEntry (line : List Char) : Option (List Char × List Char) :=
  if isIgnoredLine line then none else parseLine line

/-- The value of the last line (in input order) that parses to the key `k`:
the spec's "later occurrence overwrites earlier". -/
def lastOccurrenceValue (lines : List (List Char)) (k : List Char) : Option (List Char) :=
  (((lines.filterMap lineEntry).filter (fun p => decide (p.1 = k))).getLast?).map Prod.snd

/-! ### Claim theorems on concrete inputs -/

/-- Claim C1: the spec says a stored value failing both the float parse and
the base-10 integer parse makes `Int` return an explicit type error without
aborting.  The code instead executes the failed type assertion `v.(int)` on
the stored string and panics: at the stored value `"abc"` (which fails both
parses) the accessor crashes rather than returning an error value. -/
theorem claim_C1_int_crash_on_abc :
    parseFloatTrunc ("abc".toList) = none ∧
    parseInt10 ("abc".toList) = none ∧
    dotenvInt [(("K".toList : List Char), GoValue.str ("abc".toList))] ("K".toList) =
      GoRet.crash := by
  decide

/-- Claim C2 counterexample: value normalization does not strip exactly one
leading and one trailing quote of the matching type.  On `""a` (two double
quotes, both leading) the code strips both, where the claim predicts the
result `"a`; on `'"a"'` the code also strips the single quotes, which the
claim says are left in place.  `specNormalizeValue` renders the claim's
wording, `normalizeValue` the code. -/
theorem claim_C2_counterexample :
    normalizeValue ("\"\"a".toList) = "a".toList ∧
    specNormalizeValue ("\"\"a".toList) = "\"a".toList ∧
    normalizeValue ("'\"a\"'".toList) = "a".toList ∧
    specNormalizeValue ("'\"a\"'".toList) = "'\"a\"'".toList ∧
    parseLine ("KEY=\"\"a".toList) = some ("KEY".toList, "a".toList) := by
  decide

/-- Claim C3 counterexample: `KEY="a\"b"` contains three double-quote
characters, so the two-quote branch of value normalization is skipped and
the value is stored verbatim as `"a\"b"` — not as the unescaped `a"b` the
claim states. -/
theorem claim_C3_counterexample :
    parseLine ("KEY=\"a\\\"b\"".toList) =
      some ("KEY".toList, "\"a\\\"b\"".toList) ∧
    ("\"a\\\"b\"".toList : List Char) ≠ "a\"b".toList := by
  decide

/-- Claim C3 amended: `KEY="a\"b"` stores the raw value `"a\"b"` unchanged
(the escaped quote raises the double-quote count to three, so no quote
stripping or unescaping happens); the `\"` escape is expanded when the
two-quote condition does hold, e.g. `KEY='a\"b'` stores `a"b`; and
`KEY="line1\nline2"` stores a value with an actual newline between `line1`
and `line2`. -/
theorem claim_C3_amended :
    parseLine ("KEY=\"a\\\"b\"".toList) =
      some ("KEY".toList, "\"a\\\"b\"".toList) ∧
    parseLine ("KEY='a\\\"b'".toList) = some ("KEY".toList, "a\"b".toList) ∧
    parseLine ("KEY=\"line1\\nline2\"".toList) =
      some ("KEY".toList, "line1\nline2".toList) := by
  decide

/-- Claim C4: a hash inside a quoted value is preserved while a hash outside
quotes starts a dropped trailing comment: `KEY="hello # world"` stores
`hello # world`, and `KEY=hello # comment` stores `hello`. -/
theorem claim_C4_hash_handling :
    parseLine ("KEY=\"hello # world\"".toList) =
      some ("KEY".toList, "hello # world".toList) ∧
    parseLine ("KEY=hello # comment".toList) =
      some ("KEY".toList, "hello".toList) := by
  decide

/-- Claim C6 counterexample: the lines `export exportFOO=v` and
`exportFOO=v` do not store the same key — the literal prefix strip is
applied (once) to both, yielding keys `exportFOO` and `FOO` respectively. -/
theorem claim_C6_counterexample :
    parseLine ("export exportFOO=v".toList) =
      some ("exportFOO".toList, "v".toList) ∧
    parseLine ("exportFOO=v".toList) = some ("FOO".toList, "v".toList) ∧
    ("exportFOO".toList : List Char) ≠ "FOO".toList := by
  decide

/-! ### Shared lemmas -/

theorem goStartsWith_cons_self {c : Char} {p s : List Char} :
    goStartsWith (c :: p) (c :: s) = goStartsWith p s := by
  simp [goStartsWith]

theorem isIgnoredLine_of_trim {line : List Char}
    (h : goTrim [' ', '\n', '\t'] line = [] ∨
      (goTrim [' ', '\n', '\t'] line).head? = some '#') :
    isIgnoredLine line = true := by
  unfold isIgnoredLine
  rcases h with h | h
  · simp [h]
  · rcases ht : goTrim [' ', '\n', '\t'] line with _ | ⟨c, t⟩
    · simp [ht] at h
    · rw [ht] at h
      simp only [List.head?] at h
      obtain rfl : c = '#' := by injection h
      simp [goStartsWith]

/-! ### Claim C5: ignorable lines leave the store unchanged -/

/-- Claim C5: any line that is empty after trimming the whitespace cutset
(spaces, newlines, tabs — the characters `Setup`'s filter trims), or that
begins with `#` after that trim, stores no key: the `Setup` step on it
returns the store unchanged. -/
theorem claim_C5_ignored_lines (store : Store) (line : List Char)
    (h : goTrim [' ', '\n', '\t'] line = [] ∨
      (goTrim [' ', '\n', '\t'] line).head? = some '#') :
    setupStep store line = store := by
  unfold setupStep
  rw [isIgnoredLine_of_trim h]
  simp

/-- Witness for claim C5 at the concrete line `"  # note"` and the
singleton store. -/
theorem claim_C5_witness :
    ((goTrim [' ', '\n', '\t'] ("  # note".toList) = [] ∨
      (goTrim [' ', '\n', '\t'] ("  # note".toList)).head? = some '#') ∧
    setupStep [(("A".toList : List Char), GoValue.str ("1".toList))]
      ("  # note".toList) =
      [(("A".toList : List Char), GoValue.str ("1".toList))]) :=
  ⟨Or.inr (by decide),
    claim_C5_ignored_lines _ _ (Or.inr (by decide))⟩

/-! ### Claim C9: missing keys yield an error and the zero value -/

/-- Claim C9: for every key absent from the store — in particular every key
after a failed setup, which leaves the map nil and hence every lookup
failing — `String`, `Int` and `Bool` each return a non-nil error together
with the zero value of their type. -/
theorem claim_C9_missing_key (store : Store) (name : List Char)
    (h : mapLookup store name = none) :
    dotenvString store name = GoRet.ret [] true ∧
    dotenvInt store name = GoRet.ret 0 true ∧
    dotenvBool store name = GoRet.ret false true := by
  refine ⟨?_, ?_, ?_⟩ <;> simp [dotenvString, dotenvInt, dotenvBool, dotenvValue, h]

/-- Witness for claim C9 at the empty store and the key `"missing"`. -/
theorem claim_C9_witness :
    mapLookup [] ("missing".toList) = none ∧
    (dotenvString [] ("missing".toList) = GoRet.ret [] true ∧
     dotenvInt [] ("missing".toList) = GoRet.ret 0 true ∧
     dotenvBool [] ("missing".toList) = GoRet.ret false true) :=
  ⟨by decide, claim_C9_missing_key [] ("missing".toList) (by decide)⟩

/-! ### Store lemmas -/

theorem mapLookup_insert_self (m : Store) (k : List Char) (v : GoValue) :
    mapLookup (mapInsert m k v) k = some v := by
  induction m with
  | nil => simp [mapInsert, mapLookup]
  | cons p rest ih =>
    obtain ⟨k', v'⟩ := p
    by_cases h : k' = k
    · simp [mapInsert, mapLookup, h]
    · simp [mapInsert, mapLookup, h, ih]

theorem mapLookup_insert_ne (m : Store) (k k0 : List Char) (v : GoValue)
    (h : k0 ≠ k) : mapLookup (mapInsert m k v) k0 = mapLookup m k0 := by
  induction m with
  | nil =>
    rw [mapInsert, mapLookup, mapLookup, if_neg (Ne.symm h), mapLookup]
  | cons p rest ih =>
    obtain ⟨k', v'⟩ := p
    by_cases hk : k' = k
    · subst hk
      rw [mapInsert, if_pos rfl, mapLookup, mapLookup,
        if_neg (Ne.symm h), if_neg (Ne.symm h)]
    · rw [mapInsert, if_neg hk, mapLookup, mapLookup]
      by_cases hk0 : k' = k0
      · rw [if_pos hk0, if_pos hk0]
      · rw [if_neg hk0, if_neg hk0, ih]

theorem mem_keys_mapInsert {m : Store} {k x : List Char} {v : GoValue}
    (h : x ∈ (mapInsert m k v).map Prod.fst) :
    x ∈ m.map Prod.fst ∨ x = k := by
  induction m with
  | nil =>
    rw [mapInsert] at h
    simp only [List.map_cons, List.map_nil, List.mem_singleton] at h
    exact Or.inr h
  | cons p rest ih =>
    obtain ⟨k', v'⟩ := p
    by_cases hk : k' = k
    · subst hk
      rw [mapInsert, if_pos rfl] at h
      simp only [List.map_cons, List.mem_cons] at h ⊢
      rcases h with h | h
      · exact Or.inr h
      · exact Or.inl (Or.inr h)
    · rw [mapInsert, if_neg hk] at h
      simp only [List.map_cons, List.mem_cons] at h ⊢
      rcases h with h | h
      · exact Or.inl (Or.inl h)
      · rcases ih h with h' | h'
        · exact Or.inl (Or.inr h')
        · exact Or.inr h'

theorem nodup_keys_mapInsert {m : Store} {k : List Char} {v : GoValue}
    (h : (m.map Prod.fst).Nodup) :
    ((mapInsert m k v).map Prod.fst).Nodup := by
  induction m with
  | nil =>
    rw [mapInsert]
    simp
  | cons p rest ih =>
    obtain ⟨k', v'⟩ := p
    simp only [List.map_cons, List.nodup_cons] at h
    by_cases hk : k' = k
    · subst hk
      rw [mapInsert, if_pos rfl]
      simp only [List.map_cons, List.nodup_cons]
      exact h
    · rw [mapInsert, if_neg hk]
      simp only [List.map_cons, List.nodup_cons]
      refine ⟨fun hmem => ?_, ih h.2⟩
      rcases mem_keys_mapInsert hmem with h' | h'
      · exact h.1 h'
      · exact hk h'

/-- The store invariant of claim C10: every stored value is a Go string. -/
def allStr (m : Store) : Prop := ∀ p ∈ m, ∃ s, p.2 = GoValue.str s

theorem allStr_mapInsert {m : Store} {k : List Char} {s : List Char}
    (h : allStr m) : allStr (mapInsert m k (GoValue.str s)) := by
  induction m with
  | nil =>
    intro p hp
    simp only [mapInsert, List.mem_singleton] at hp
    exact ⟨s, by rw [hp]⟩
  | cons q rest ih =>
    obtain ⟨k', v'⟩ := q
    by_cases hk : k' = k
    · subst hk
      intro p hp
      rw [mapInsert, if_pos rfl] at hp
      rcases List.mem_cons.mp hp with h' | h'
      · exact ⟨s, by rw [h']⟩
      · exact h p (List.mem_cons_of_mem _ h')
    · intro p hp
      rw [mapInsert, if_neg hk] at hp
      rcases List.mem_cons.mp hp with h' | h'
      · exact h p (by rw [h']; exact List.mem_cons_self _ _)
      · exact ih (fun q hq => h q (List.mem_cons_of_mem _ hq)) p h'

theorem allStr_setupStep {m : Store} (line : List Char) (h : allStr m) :
    allStr (setupStep m line) := by
  unfold setupStep
  by_cases hi : isIgnoredLine line
  · simpa [hi]
  · rcases hp : parseLine line with _ | ⟨k, v⟩
    · simpa [hi, hp]
    · simpa [hi, hp] using allStr_mapInsert h

theorem allStr_foldl (lines : List (List Char)) (m : Store) (h : allStr m) :
    allStr (lines.foldl setupStep m) := by
  induction lines generalizing m with
  | nil => simpa
  | cons line rest ih => exact ih _ (allStr_setupStep line h)

theorem allStr_setupLines (lines : List (List Char)) :
    allStr (setupLines lines) :=
  allStr_foldl lines [] (fun p hp => absurd hp (List.not_mem_nil p))

theorem mem_of_mapLookup_eq_some {m : Store} {k : List Char} {v : GoValue}
    (h : mapLookup m k = some v) : (k, v) ∈ m := by
  induction m with
  | nil => simp [mapLookup] at h
  | cons p rest ih =>
    obtain ⟨k', v'⟩ := p
    by_cases hk : k' = k
    · subst hk
      rw [mapLookup, if_pos rfl] at h
      obtain rfl : v' = v := by injection h
      exact List.mem_cons_self _ _
    · rw [mapLookup, if_neg hk] at h
      exact List.mem_cons_of_mem _ (ih h)

/-! ### Claim C10: stored values are strings; string assertions succeed -/

/-- Claim C10: `Setup` only inserts string values, so every value found in a
setup-built store satisfies the `v.(string)` assertion, and the `String` and
`Bool` accessors (whose only assertion is `v.(string)`) can never panic on a
key present in such a store. -/
theorem claim_C10_values_are_strings (lines : List (List Char))
    (k : List Char) (v : GoValue)
    (h : mapLookup (setupLines lines) k = some v) :
    (assertString v).isSome = true ∧
    dotenvString (setupLines lines) k ≠ GoRet.crash ∧
    dotenvBool (setupLines lines) k ≠ GoRet.crash := by
  obtain ⟨s, rfl⟩ := allStr_setupLines lines (k, v) (mem_of_mapLookup_eq_some h)
  refine ⟨rfl, ?_, ?_⟩
  · simp [dotenvString, dotenvValue, h, assertString]
  · rcases hb : parseBool s with _ | b <;>
      simp [dotenvBool, dotenvValue, h, assertString, hb]

/-- Witness for claim C10 at the one-line input `a=1` and the key `a`. -/
theorem claim_C10_witness :
    mapLookup (setupLines ["a=1".toList]) ("a".toList) =
      some (GoValue.str ("1".toList)) ∧
    ((assertString (GoValue.str ("1".toList))).isSome = true ∧
     dotenvString (setupLines ["a=1".toList]) ("a".toList) ≠ GoRet.crash ∧
     dotenvBool (setupLines ["a=1".toList]) ("a".toList) ≠ GoRet.crash) :=
  ⟨by decide, claim_C10_values_are_strings ["a=1".toList] ("a".toList)
    (GoValue.str ("1".toList)) (by decide)⟩

/-! ### Claim C7: duplicate keys — the last occurrence wins -/

theorem option_or_none {α : Type} (o : Option α) : o.or none = o := by
  cases o <;> rfl

theorem option_map_or {α β : Type} (f : α → β) (a b : Option α) :
    (a.or b).map f = (a.map f).or (b.map f) := by
  cases a <;> rfl

theorem option_or_assoc {α : Type} (a b c : Option α) :
    (a.or b).or c = a.or (b.or c) := by
  cases a <;> rfl

theorem setupStep_eq_lineEntry (m : Store) (line : List Char) :
    setupStep m line =
      match lineEntry line with
      | some (k, v) => mapInsert m k (GoValue.str v)
      | none => m := by
  unfold setupStep lineEntry
  by_cases hi : isIgnoredLine line
  · simp [hi]
  · rcases hp : parseLine line with _ | ⟨k, v⟩ <;> simp [hi, hp]

theorem getLast?_cons {α : Type} (x : α) (xs : List α) :
    (x :: xs).getLast? = xs.getLast?.or (some x) := by
  induction xs generalizing x with
  | nil => rfl
  | cons y ys ih =>
    rw [List.getLast?_cons_cons, ih y]
    cases hys : ys.getLast? <;> rfl

theorem lastOccurrenceValue_cons (line : List Char) (rest : List (List Char))
    (k : List Char) :
    lastOccurrenceValue (line :: rest) k =
      match lineEntry line with
      | some (k', v) =>
        if k' = k then (lastOccurrenceValue rest k).or (some v)
        else lastOccurrenceValue rest k
      | none => lastOccurrenceValue rest k := by
  unfold lastOccurrenceValue
  rcases he : lineEntry line with _ | ⟨k', v⟩
  · simp only [List.filterMap_cons, he]
  · simp only [List.filterMap_cons, he]
    by_cases hk : k' = k
    · rw [List.filter_cons_of_pos (by simpa using hk), if_pos hk,
        getLast?_cons, option_map_or]
      rfl
    · rw [List.filter_cons_of_neg (by simpa using hk), if_neg hk]

theorem mapLookup_foldl_setupStep (lines : List (List Char)) (m : Store)
    (k : List Char) :
    mapLookup (List.foldl setupStep m lines) k =
      ((lastOccurrenceValue lines k).map GoValue.str).or (mapLookup m k) := by
  induction lines generalizing m with
  | nil => rfl
  | cons line rest ih =>
    rw [List.foldl_cons, ih, lastOccurrenceValue_cons,
      setupStep_eq_lineEntry m line]
    rcases he : lineEntry line with _ | ⟨k', v⟩
    · rfl
    · dsimp only
      by_cases hk : k' = k
      · subst hk
        rw [if_pos rfl, mapLookup_insert_self, option_map_or, option_or_assoc]
        rfl
      · rw [if_neg hk, mapLookup_insert_ne m k' k _ (Ne.symm hk)]

theorem nodup_keys_foldl (lines : List (List Char)) (m : Store)
    (h : (m.map Prod.fst).Nodup) :
    ((List.foldl setupStep m lines).map Prod.fst).Nodup := by
  induction lines generalizing m with
  | nil => simpa
  | cons line rest ih =>
    rw [List.foldl_cons]
    refine ih _ ?_
    rw [setupStep_eq_lineEntry]
    rcases lineEntry line with _ | ⟨k', v⟩
    · exact h
    · exact nodup_keys_mapInsert h

/-- Claim C7: after setup, a key maps to the value of the last input line
that parsed to it (later occurrences overwrite earlier ones), and the keys
of the store are pairwise distinct. -/
theorem claim_C7_last_occurrence_wins (lines : List (List Char))
    (k : List Char) :
    mapLookup (setupLines lines) k =
      (lastOccurrenceValue lines k).map GoValue.str ∧
    ((setupLines lines).map Prod.fst).Nodup := by
  constructor
  · rw [setupLines, mapLookup_foldl_setupStep, mapLookup, option_or_none]
  · exact nodup_keys_foldl lines [] (by simp)

/-! ### Character-membership lemmas for comment removal -/

theorem mem_of_mem_commentLoop {s : List Char} {segs : List (List Char)}
    {opn : Bool} {keep : List (List Char)}
    (h : s ∈ commentLoop segs opn keep) : s ∈ segs ∨ s ∈ keep := by
  induction segs generalizing opn keep with
  | nil =>
    rw [commentLoop] at h
    exact Or.inr h
  | cons seg rest ih =>
    rw [commentLoop] at h
    have step : ∀ {o' : Bool}, s ∈ commentLoop rest o' (keep ++ [seg]) →
        s ∈ seg :: rest ∨ s ∈ keep := by
      intro o' hmem
      rcases ih hmem with h' | h'
      · exact Or.inl (List.mem_cons_of_mem _ h')
      · rcases List.mem_append.mp h' with h'' | h''
        · exact Or.inr h''
        · exact Or.inl (List.mem_cons.mpr (Or.inl (List.mem_singleton.mp h'')))
    by_cases hq : countChar '"' seg = 1 ∨ countChar '\'' seg = 1
    · rw [if_pos hq] at h
      by_cases ho : opn
      · rw [if_pos ho] at h
        exact step h
      · rw [if_neg ho] at h
        exact step h
    · rw [if_neg hq] at h
      by_cases hk : keep.length = 0 ∨ opn = true
      · rw [if_pos hk] at h
        exact step h
      · rw [if_neg hk] at h
        rcases ih h with h' | h'
        · exact Or.inl (List.mem_cons_of_mem _ h')
        · exact Or.inr h'

theorem mem_of_mem_joinChar {x : Char} {sep : Char} {ll : List (List Char)}
    (h : x ∈ joinChar sep ll) : (∃ s ∈ ll, x ∈ s) ∨ x = sep := by
  induction ll with
  | nil => simp [joinChar] at h
  | cons s rest ih =>
    rcases rest with _ | ⟨s2, ss⟩
    · exact Or.inl ⟨s, List.mem_singleton.mpr rfl, h⟩
    · rw [joinChar] at h
      rcases List.mem_append.mp h with h' | h'
      · exact Or.inl ⟨s, List.mem_cons_self _ _, h'⟩
      · rcases List.mem_cons.mp h' with h'' | h''
        · exact Or.inr h''
        · rcases ih h'' with ⟨t, ht, hx⟩ | h''
          · exact Or.inl ⟨t, List.mem_cons_of_mem _ ht, hx⟩
          · exact Or.inr h''

theorem mem_of_mem_splitChar {x : Char} {sep : Char} {l : List Char}
    {s : List Char} (hs : s ∈ splitChar sep l) (hx : x ∈ s) : x ∈ l := by
  induction l generalizing s with
  | nil =>
    rw [splitChar] at hs
    rw [List.mem_singleton.mp hs] at hx
    exact absurd hx (List.not_mem_nil x)
  | cons c rest ih =>
    rw [splitChar] at hs
    by_cases hc : c = sep
    · rw [if_pos hc] at hs
      rcases List.mem_cons.mp hs with h' | h'
      · rw [h'] at hx
        exact absurd hx (List.not_mem_nil x)
      · exact List.mem_cons_of_mem _ (ih h' hx)
    · rw [if_neg hc] at hs
      rcases hsp : splitChar sep rest with _ | ⟨s0, ss⟩
      · rw [hsp] at hs
        rw [List.mem_singleton.mp hs] at hx
        rw [List.mem_singleton.mp hx]
        exact List.mem_cons_self _ _
      · rw [hsp] at hs
        rcases List.mem_cons.mp hs with h' | h'
        · rw [h'] at hx
          rcases List.mem_cons.mp hx with h'' | h''
          · rw [h'']
            exact List.mem_cons_self _ _
          · exact List.mem_cons_of_mem _
              (ih (hsp ▸ List.mem_cons_self s0 ss) h'')
        · exact List.mem_cons_of_mem _
            (ih (hsp ▸ List.mem_cons_of_mem s0 h') hx)

theorem mem_of_mem_removeComments {x : Char} {line : List Char}
    (h : x ∈ removeComments line) : x ∈ line ∨ x = '#' := by
  unfold removeComments at h
  by_cases hc : '#' ∈ line
  · rw [if_pos hc] at h
    rcases mem_of_mem_joinChar h with ⟨s, hs, hx⟩ | h'
    · rcases mem_of_mem_commentLoop hs with h' | h'
      · exact Or.inl (mem_of_mem_splitChar h' hx)
      · exact absurd h' (List.not_mem_nil s)
    · exact Or.inr h'
  · rw [if_neg hc] at h
    exact Or.inl h

theorem splitFirst_eq_none {sep : Char} {s : List Char} (h : sep ∉ s) :
    splitFirst sep s = none := by
  induction s with
  | nil => rfl
  | cons c rest ih =>
    have hcs : ¬ c = sep := by
      intro a
      exact h (by rw [← a]; exact List.mem_cons_self c rest)
    rw [splitFirst, if_neg hcs, ih (fun a => h (List.mem_cons_of_mem c a))]
    rfl

theorem parseLine_eq_none_of_no_sep {line : List Char}
    (he : '=' ∉ line) (hc : ':' ∉ line) : parseLine line = none := by
  unfold parseLine
  by_cases hn : line = []
  · rw [if_pos hn]
  · rw [if_neg hn]
    have hre : '=' ∉ removeComments line := by
      intro hmem
      rcases mem_of_mem_removeComments hmem with h' | h'
      · exact he h'
      · exact absurd h' (by decide)
    have hrc : ':' ∉ removeComments line := by
      intro hmem
      rcases mem_of_mem_removeComments hmem with h' | h'
      · exact hc h'
      · exact absurd h' (by decide)
    simp only [splitFirst_eq_none hre, splitFirst_eq_none hrc]

/-! ### Claim C8: setup fails iff the generator fails; malformed lines skip -/

/-- Claim C8: `Setup` returns an error exactly when the generator fails;
when the source opens, setup succeeds, producing the line-fold store, and a
malformed line — one containing neither `=` nor `:` — contributes nothing to
the store. -/
theorem claim_C8_error_policy :
    (∀ g : Option (List (List Char)), Setup g = none ↔ g = none) ∧
    (∀ lines : List (List Char), Setup (some lines) = some (setupLines lines)) ∧
    (∀ (store : Store) (line : List Char), '=' ∉ line → ':' ∉ line →
      setupStep store line = store) := by
  refine ⟨?_, ?_, ?_⟩
  · intro g
    cases g <;> simp [Setup]
  · intro lines
    rfl
  · intro store line he hc
    unfold setupStep
    by_cases hi : isIgnoredLine line
    · rw [if_pos hi]
    · rw [if_neg hi, parseLine_eq_none_of_no_sep he hc]

/-- Witness for claim C8 at the malformed line `"no separator"` (which also
exercises the success conjunct at a concrete input). -/
theorem claim_C8_witness :
    ('=' ∉ ("no separator".toList : List Char)) ∧
    (':' ∉ ("no separator".toList : List Char)) ∧
    setupStep [] ("no separator".toList) = [] :=
  ⟨by decide, by decide,
    claim_C8_error_policy.2.2 [] ("no separator".toList) (by decide) (by decide)⟩

/-! ### Claim C2 (amended): value normalization over a parsed line -/

theorem splitFirst_append_cons {c : Char} {k v : List Char} (h : c ∉ k) :
    splitFirst c (k ++ c :: v) = some (k, v) := by
  induction k with
  | nil => simp [splitFirst]
  | cons d rest ih =>
    have hdc : ¬ d = c := by
      intro a
      exact h (by rw [← a]; exact List.mem_cons_self d rest)
    rw [List.cons_append, splitFirst, if_neg hdc,
      ih (fun a => h (List.mem_cons_of_mem d a))]
    rfl

theorem removeComments_of_no_hash {line : List Char} (h : '#' ∉ line) :
    removeComments line = line := by
  unfold removeComments
  rw [if_neg h]

/-- Claim C2 amended: for a parsed line `k=v` free of `#` (so the value is
untouched by comment removal) whose space-trimmed value holds exactly two
`"` or exactly two `'` characters, the stored value is obtained by
stripping ALL leading and trailing quote characters of either kind (this is
`strings.Trim(value, "\"'")` — not exactly one of the matching kind, and
edge quotes of the other kind are removed too), then expanding `\"` and
`\n` escapes inside. -/
theorem claim_C2_amended (k v : List Char)
    (hk : '#' ∉ k) (hv : '#' ∉ v) (he : '=' ∉ k)
    (hq : countChar '"' (goTrim [' '] v) = 2 ∨
      countChar '\'' (goTrim [' '] v) = 2) :
    (parseLine (k ++ '=' :: v)).map Prod.snd =
      some (expandEscapes (goTrim ['"', '\''] (goTrim [' '] v))) := by
  have hne : k ++ '=' :: v ≠ [] := by cases k <;> simp
  have hnh : '#' ∉ k ++ '=' :: v := by
    intro hm
    rcases List.mem_append.mp hm with h' | h'
    · exact hk h'
    · rcases List.mem_cons.mp h' with h'' | h''
      · exact absurd h'' (by decide)
      · exact hv h''
  unfold parseLine
  rw [if_neg hne]
  simp only [removeComments_of_no_hash hnh, splitFirst_append_cons he,
    Option.map_some']
  unfold normalizeValue
  simp only
  rw [if_pos hq]

/-- Witness for claim C2 amended at the line `KEY="a\nb"`. -/
theorem claim_C2_amended_witness :
    ('#' ∉ ("KEY".toList : List Char)) ∧
    ('#' ∉ ("\"a\\nb\"".toList : List Char)) ∧
    ('=' ∉ ("KEY".toList : List Char)) ∧
    (countChar '"' (goTrim [' '] ("\"a\\nb\"".toList)) = 2 ∨
      countChar '\'' (goTrim [' '] ("\"a\\nb\"".toList)) = 2) ∧
    (parseLine ("KEY".toList ++ '=' :: "\"a\\nb\"".toList)).map Prod.snd =
      some (expandEscapes (goTrim ['"', '\'']
        (goTrim [' '] ("\"a\\nb\"".toList)))) :=
  ⟨by decide, by decide, by decide, Or.inl (by decide),
    claim_C2_amended ("KEY".toList) ("\"a\\nb\"".toList)
      (by decide) (by decide) (by decide) (Or.inl (by decide))⟩

/-! ### Structure of comment removal (for claim C6) -/

theorem countChar_append (c : Char) (p s : List Char) :
    countChar c (p ++ s) = countChar c p + countChar c s := by
  induction p with
  | nil => simp [countChar]
  | cons d rest ih => simp [countChar, ih, Nat.add_assoc]

theorem countChar_eq_zero_of_not_mem {c : Char} {p : List Char} (h : c ∉ p) :
    countChar c p = 0 := by
  induction p with
  | nil => rfl
  | cons d rest ih =>
    rw [countChar,
      if_neg (fun a => h (by rw [← a]; exact List.mem_cons_self d rest)),
      ih (fun m => h (List.mem_cons_of_mem d m))]

theorem splitChar_ne_nil (sep : Char) (l : List Char) :
    splitChar sep l ≠ [] := by
  cases l with
  | nil => simp [splitChar]
  | cons c rest =>
    rw [splitChar]
    by_cases hc : c = sep
    · rw [if_pos hc]
      exact List.cons_ne_nil _ _
    · rw [if_neg hc]
      rcases hsp : splitChar sep rest with _ | ⟨s, ss⟩ <;>
        simp [hsp]

theorem splitChar_append_no_sep {sep : Char} {p : List Char} (hp : sep ∉ p)
    (l : List Char) : ∃ s ss, splitChar sep l = s :: ss ∧
      splitChar sep (p ++ l) = (p ++ s) :: ss := by
  induction p with
  | nil =>
    obtain ⟨s, ss, h⟩ := List.exists_cons_of_ne_nil (splitChar_ne_nil sep l)
    exact ⟨s, ss, h, by simpa using h⟩
  | cons c p' ih =>
    obtain ⟨s, ss, h1, h2⟩ := ih (fun a => hp (List.mem_cons_of_mem c a))
    have hcs : ¬ c = sep := fun a =>
      hp (by rw [← a]; exact List.mem_cons_self c p')
    refine ⟨s, ss, h1, ?_⟩
    rw [List.cons_append, splitChar, if_neg hcs, h2]
    rfl

theorem joinChar_splitChar (sep : Char) (l : List Char) :
    joinChar sep (splitChar sep l) = l := by
  induction l with
  | nil => rfl
  | cons c rest ih =>
    rw [splitChar]
    by_cases hc : c = sep
    · rw [if_pos hc]
      obtain ⟨s, ss, h⟩ :=
        List.exists_cons_of_ne_nil (splitChar_ne_nil sep rest)
      have hj : joinChar sep (s :: ss) = rest := by rw [← h, ih]
      rw [h, joinChar, List.nil_append, hj, hc]
    · rw [if_neg hc]
      rcases hsp : splitChar sep rest with _ | ⟨s, ss⟩
      · exact absurd hsp (splitChar_ne_nil sep rest)
      · have hj : joinChar sep (s :: ss) = rest := by rw [← hsp, ih]
        cases ss with
        | nil =>
          rw [joinChar] at hj
          rw [joinChar, hj]
        | cons t ts =>
          rw [joinChar] at hj
          rw [joinChar, List.cons_append, hj]

/-- The suffix of kept segments that `commentLoop` appends once its
accumulator is non-empty: a quote-toggling segment is always kept, any
other segment is kept exactly when the quotes are open. -/
def commentTail : List (List Char) → Bool → List (List Char)
  | [], _ => []
  | seg :: rest, opn =>
    if countChar '"' seg = 1 ∨ countChar '\'' seg = 1 then
      seg :: commentTail rest (!opn)
    else if opn then seg :: commentTail rest opn
    else commentTail rest opn

theorem commentLoop_eq_append (segs : List (List Char)) (opn : Bool)
    (keep : List (List Char)) (h : keep ≠ []) :
    commentLoop segs opn keep = keep ++ commentTail segs opn := by
  induction segs generalizing opn keep with
  | nil => rw [commentLoop, commentTail, List.append_nil]
  | cons seg rest ih =>
    rw [commentLoop, commentTail]
    by_cases hC : countChar '"' seg = 1 ∨ countChar '\'' seg = 1
    · rw [if_pos hC, if_pos hC]
      cases opn with
      | true =>
        rw [if_pos rfl, ih _ _ (by simp), List.append_assoc,
          List.singleton_append]
        rfl
      | false =>
        rw [if_neg (by simp), ih _ _ (by simp), List.append_assoc,
          List.singleton_append]
        rfl
    · rw [if_neg hC, if_neg hC]
      cases opn with
      | true =>
        rw [if_pos (Or.inr rfl), if_pos rfl, ih _ _ (by simp),
          List.append_assoc, List.singleton_append]
      | false =>
        have hlen : ¬ (keep.length = 0 ∨ False) := by
          simp [List.length_eq_zero, h]
        rw [if_neg (by simpa using hlen), if_neg (by simp), ih _ _ h]

theorem commentLoop_first (s : List Char) (ss : List (List Char)) :
    commentLoop (s :: ss) false [] =
      s :: commentTail ss
        (if countChar '"' s = 1 ∨ countChar '\'' s = 1 then true
         else false) := by
  rw [commentLoop]
  by_cases hC : countChar '"' s = 1 ∨ countChar '\'' s = 1
  · rw [if_pos hC, if_pos hC, if_neg (by simp),
      commentLoop_eq_append _ _ _ (by simp), List.nil_append,
      List.singleton_append]
  · rw [if_neg hC, if_neg hC]
    have hcond : (([] : List (List Char)).length = 0 ∨ false = true) :=
      Or.inl rfl
    rw [if_pos hcond, commentLoop_eq_append _ _ _ (by simp),
      List.nil_append, List.singleton_append]

theorem removeComments_decomp {l : List Char} (hc : '#' ∈ l) :
    ∃ s ss b, splitChar '#' l = s :: ss ∧
      removeComments l = joinChar '#' (s :: commentTail ss b) := by
  obtain ⟨s, ss, h⟩ := List.exists_cons_of_ne_nil (splitChar_ne_nil '#' l)
  refine ⟨s, ss,
    (if countChar '"' s = 1 ∨ countChar '\'' s = 1 then true else false),
    h, ?_⟩
  unfold removeComments
  rw [if_pos hc, h, commentLoop_first]

theorem removeComments_append {p l : List Char}
    (hph : '#' ∉ p) (hpd : '"' ∉ p) (hpq : '\'' ∉ p) :
    removeComments (p ++ l) = p ++ removeComments l := by
  by_cases hc : '#' ∈ l
  · have hcpl : '#' ∈ p ++ l := List.mem_append.mpr (Or.inr hc)
    obtain ⟨s, ss, hsp1, hsp2⟩ := splitChar_append_no_sep hph l
    unfold removeComments
    rw [if_pos hc, if_pos hcpl, hsp1, hsp2, commentLoop_first,
      commentLoop_first]
    have hcount :
        (countChar '"' (p ++ s) = 1 ∨ countChar '\'' (p ++ s) = 1) ↔
        (countChar '"' s = 1 ∨ countChar '\'' s = 1) := by
      rw [countChar_append, countChar_append,
        countChar_eq_zero_of_not_mem hpd, countChar_eq_zero_of_not_mem hpq]
      simp
    have hflag :
        (if countChar '"' (p ++ s) = 1 ∨ countChar '\'' (p ++ s) = 1 then
          true else false) =
        (if countChar '"' s = 1 ∨ countChar '\'' s = 1 then true
         else false) := by
      by_cases hC : countChar '"' s = 1 ∨ countChar '\'' s = 1
      · rw [if_pos hC, if_pos (hcount.mpr hC)]
      · rw [if_neg hC, if_neg (fun a => hC (hcount.mp a))]
    rw [hflag]
    cases commentTail ss
        (if countChar '"' s = 1 ∨ countChar '\'' s = 1 then true
         else false) with
    | nil => rw [joinChar, joinChar]
    | cons t ts => rw [joinChar, joinChar, List.append_assoc]
  · have hcpl : '#' ∉ p ++ l := by
      intro hm
      rcases List.mem_append.mp hm with h' | h'
      · exact hph h'
      · exact hc h'
    rw [removeComments_of_no_hash hcpl, removeComments_of_no_hash hc]

/-! ### Prefix lemmas (for claim C6) -/

theorem goStartsWith_append_self (E t : List Char) :
    goStartsWith E (E ++ t) = true := by
  induction E with
  | nil => rfl
  | cons c E' ih =>
    show (if c = c then goStartsWith E' (E' ++ t) else false) = true
    rw [if_pos rfl, ih]

theorem exists_append_of_goStartsWith :
    ∀ {E s : List Char}, goStartsWith E s = true → ∃ t, s = E ++ t := by
  intro E
  induction E with
  | nil => exact fun {s} _ => ⟨s, rfl⟩
  | cons c E' ih =>
    intro s h
    cases s with
    | nil => exact absurd h (by simp [goStartsWith])
    | cons d s' =>
      by_cases hcd : c = d
      · subst hcd
        rw [goStartsWith, if_pos rfl] at h
        obtain ⟨t, rfl⟩ := ih h
        exact ⟨t, rfl⟩
      · rw [goStartsWith, if_neg hcd] at h
        exact absurd h (by simp)

theorem goStartsWith_append_right {E a t : List Char}
    (h : goStartsWith E a = true) : goStartsWith E (a ++ t) = true := by
  obtain ⟨u, rfl⟩ := exists_append_of_goStartsWith h
  rw [List.append_assoc]
  exact goStartsWith_append_self E _

theorem goStartsWith_of_append_sep {sep : Char} :
    ∀ {E s r : List Char}, sep ∉ E → (r = [] ∨ ∃ rr, r = sep :: rr) →
      goStartsWith E (s ++ r) = true → goStartsWith E s = true := by
  intro E
  induction E with
  | nil => intro s r _ _ _; rfl
  | cons c E' ih =>
    intro s r hsep hr h
    cases s with
    | nil =>
      exfalso
      rcases hr with rfl | ⟨rr, rfl⟩
      · rw [List.nil_append] at h
        exact absurd h (by simp [goStartsWith])
      · rw [List.nil_append] at h
        by_cases hcs : c = sep
        · exact hsep (by rw [← hcs]; exact List.mem_cons_self c E')
        · rw [goStartsWith, if_neg hcs] at h
          exact absurd h (by simp)
    | cons d s' =>
      rw [List.cons_append] at h
      by_cases hcd : c = d
      · subst hcd
        rw [goStartsWith, if_pos rfl] at h
        have htail := ih (fun m => hsep (List.mem_cons_of_mem c m)) hr h
        rw [goStartsWith, if_pos rfl]
        exact htail
      · rw [goStartsWith, if_neg hcd] at h
        exact absurd h (by simp)

theorem eq_append_of_splitFirst {c : Char} :
    ∀ {l a b : List Char}, splitFirst c l = some (a, b) → l = a ++ c :: b := by
  intro l
  induction l with
  | nil => intro a b h; exact absurd h (by simp [splitFirst])
  | cons d rest ih =>
    intro a b h
    rw [splitFirst] at h
    by_cases hdc : d = c
    · rw [if_pos hdc] at h
      have hinj := Option.some.inj h
      have h1 : ([] : List Char) = a := congrArg Prod.fst hinj
      have h2 : rest = b := congrArg Prod.snd hinj
      rw [← h1, ← h2, List.nil_append, hdc]
    · rw [if_neg hdc] at h
      rcases hsp : splitFirst c rest with _ | ⟨a', b'⟩
      · rw [hsp] at h
        exact absurd h (by simp)
      · rw [hsp] at h
        simp only [Option.map_some'] at h
        have hinj := Option.some.inj h
        have h1 : d :: a' = a := congrArg Prod.fst hinj
        have h2 : b' = b := congrArg Prod.snd hinj
        rw [← h1, ← h2, List.cons_append, ih hsp]

theorem goStartsWith_removeComments {E l : List Char} (hE : '#' ∉ E)
    (h : goStartsWith E (removeComments l) = true) :
    goStartsWith E l = true := by
  by_cases hc : '#' ∈ l
  · obtain ⟨s, ss, b, hsp, hrw⟩ := removeComments_decomp hc
    rw [hrw] at h
    obtain ⟨r, hjr, hr⟩ :
        ∃ r, joinChar '#' (s :: commentTail ss b) = s ++ r ∧
          (r = [] ∨ ∃ rr, r = '#' :: rr) := by
      cases commentTail ss b with
      | nil => exact ⟨[], by rw [joinChar, List.append_nil], Or.inl rfl⟩
      | cons t ts => exact ⟨'#' :: joinChar '#' (t :: ts), by rw [joinChar],
          Or.inr ⟨_, rfl⟩⟩
    rw [hjr] at h
    have hs : goStartsWith E s = true :=
      goStartsWith_of_append_sep hE hr h
    have hl : ∃ r', l = s ++ r' := by
      have hid := joinChar_splitChar '#' l
      rw [hsp] at hid
      cases ss with
      | nil => exact ⟨[], by rw [← hid, joinChar, List.append_nil]⟩
      | cons t ts => exact ⟨'#' :: joinChar '#' (t :: ts),
          by rw [← hid, joinChar]⟩
    obtain ⟨r', rfl⟩ := hl
    exact goStartsWith_append_right hs
  · rwa [removeComments_of_no_hash hc] at h

theorem splitFirst_append_left {c : Char} {p : List Char} (hp : c ∉ p)
    (l : List Char) : splitFirst c (p ++ l) =
      (splitFirst c l).map (fun q => (p ++ q.1, q.2)) := by
  induction p with
  | nil =>
    rw [List.nil_append]
    cases splitFirst c l <;> simp
  | cons d p' ih =>
    have hdc : ¬ d = c := fun a =>
      hp (by rw [← a]; exact List.mem_cons_self d p')
    rw [List.cons_append, splitFirst, if_neg hdc,
      ih (fun m => hp (List.mem_cons_of_mem d m))]
    cases splitFirst c l <;> rfl

theorem goTrim_cons_of_mem {c : Char} {cut s : List Char} (h : c ∈ cut) :
    goTrim cut (c :: s) = goTrim cut s := by
  unfold goTrim
  rw [trimLeftChars, if_pos h]

theorem key_not_export {K V : List Char} {sep : Char} {a b : List Char}
    (hK : goStartsWith exportToken K = false) (heqE : '=' ∉ exportToken)
    (h : splitFirst sep (removeComments (K ++ '=' :: V)) = some (a, b)) :
    goStartsWith exportToken a = false := by
  rcases hga : goStartsWith exportToken a with _ | _
  · rfl
  · exfalso
    have hL : removeComments (K ++ '=' :: V) = a ++ sep :: b :=
      eq_append_of_splitFirst h
    have h1 : goStartsWith exportToken (removeComments (K ++ '=' :: V)) =
        true := by
      rw [hL]
      exact goStartsWith_append_right hga
    have h2 : goStartsWith exportToken (K ++ '=' :: V) = true :=
      goStartsWith_removeComments (by decide) h1
    have h3 : goStartsWith exportToken K = true :=
      goStartsWith_of_append_sep heqE (Or.inr ⟨V, rfl⟩) h2
    rw [hK] at h3
    exact absurd h3 (by decide)

theorem exportPrefix_key_eq {a : List Char}
    (h : goStartsWith exportToken a = false) :
    goTrim [' ']
      (if goStartsWith exportToken ("export ".toList ++ a) then
        goStripLead exportToken ("export ".toList ++ a)
      else "export ".toList ++ a) =
    goTrim [' ']
      (if goStartsWith exportToken a then goStripLead exportToken a
       else a) := by
  have heq : "export ".toList ++ a = exportToken ++ (' ' :: a) := rfl
  have hsw : goStartsWith exportToken ("export ".toList ++ a) = true := by
    rw [heq]
    exact goStartsWith_append_self _ _
  have hstrip : goStripLead exportToken ("export ".toList ++ a) =
      ' ' :: a := by
    rw [goStripLead, if_pos hsw, heq]
    exact List.drop_left exportToken (' ' :: a)
  rw [if_pos hsw, if_neg (by simp [h]), hstrip, goTrim_cons_of_mem
    (List.mem_singleton.mpr rfl)]

/-! ### Claim C6 (amended): the export prefix -/

/-- Claim C6 amended: for every key that does not itself begin with the
literal `export` prefix, the lines `export KEY=value` and `KEY=value` parse
identically (same stored key and value, and the same parse failures); the
prefix strip is literal, with no word-boundary check, so `exportFOO=1`
stores the key `FOO`.  (When the key does begin with `export`, the two
lines differ: the strip is applied only once — see the counterexample.) -/
theorem claim_C6_amended :
    (∀ K V : List Char, goStartsWith exportToken K = false →
      parseLine ("export ".toList ++ (K ++ '=' :: V)) =
        parseLine (K ++ '=' :: V)) ∧
    parseLine ("exportFOO=1".toList) = some ("FOO".toList, "1".toList) := by
  refine ⟨?_, by decide⟩
  intro K V hK
  have hlne : K ++ '=' :: V ≠ [] := by cases K <;> simp
  have hPlne : "export ".toList ++ (K ++ '=' :: V) ≠ [] := by
    have hshape : "export ".toList ++ (K ++ '=' :: V) =
        'e' :: ("xport ".toList ++ (K ++ '=' :: V)) := rfl
    rw [hshape]
    exact List.cons_ne_nil _ _
  have hrc := removeComments_append
    (p := "export ".toList) (l := K ++ '=' :: V)
    (by decide) (by decide) (by decide)
  unfold parseLine
  rw [if_neg hPlne, if_neg hlne]
  simp only [hrc,
    splitFirst_append_left (show ('=' : Char) ∉ "export ".toList by decide),
    splitFirst_append_left (show (':' : Char) ∉ "export ".toList by decide)]
  rcases hE : splitFirst '=' (removeComments (K ++ '=' :: V)) with _ | ⟨a, b⟩
  · rcases hC : splitFirst ':' (removeComments (K ++ '=' :: V)) with _ | ⟨a, b⟩
    · rfl
    · have hna : goStartsWith exportToken a = false :=
        key_not_export hK (by decide) hC
      simp only [Option.map_none', Option.map_some']
      rw [exportPrefix_key_eq hna]
  · have hna : goStartsWith exportToken a = false :=
      key_not_export hK (by decide) hE
    simp only [Option.map_some']
    rw [exportPrefix_key_eq hna]

/-- Witness for claim C6 amended at `export FOO=1` versus `FOO=1`. -/
theorem claim_C6_amended_witness :
    goStartsWith exportToken ("FOO".toList) = false ∧
    parseLine ("export ".toList ++ ("FOO".toList ++ '=' :: "1".toList)) =
      parseLine ("FOO".toList ++ '=' :: "1".toList) :=
  ⟨by decide,
    claim_C6_amended.1 ("FOO".toList) ("1".toList) (by decide)⟩

end Configure
